import Mathlib

/-!
Verification of the generation-control engine of Clover-Edition
(`src/gpt2generator.py`) via a shallow embedding in Lean 4.

Scores (logits) are modelled as rationals; the never-selectable sentinel
`-inf` used by the filtering code is modelled as the bottom element of
`WithBot ℚ`.  The transcendental `exp` inside `softmax` is abstracted as a
parameter `E : ℚ → ℚ` that theorems assume positive, which is the only
property of `exp` the filtering code relies on; `exp(-inf) = 0` is modelled
by extending `E` with value `0` at the bottom element.
-/

namespace CloverEdition

/-! ## truncate_multiple_sequences (gpt2generator.py lines 122-126)

```python
def truncate_multiple_sequences(seqs, max_len=100):
    while sum(len(s) for s in seqs) > max_len:
        longest = sorted(seqs, key=len, reverse=True)[0]
        longest.pop(0)
```

`sorted(..., key=len, reverse=True)[0]` is the first segment of maximal
length (Python sort is stable, so ties keep first-encountered order).
`pop(0)` on an empty list raises `IndexError`, which the embedding models
as the `indexError` outcome, carrying the state of the segments at the
moment of the raise. -/

def totalLen (seqs : List (List Nat)) : Nat :=
  (seqs.map List.length).sum

/-- Index of the first segment of maximal length
(`sorted(seqs, key=len, reverse=True)[0]`); `none` when `seqs = []`
(in which case Python `[0]` itself raises `IndexError`). -/
def firstLongestIdx : List (List Nat) → Option Nat
  | [] => none
  | s :: rest =>
    match firstLongestIdx rest with
    | none => some 0
    | some j => if (rest.getD j []).length ≤ s.length then some 0 else some (j + 1)

/-- One iteration body: `longest.pop(0)`.  Returns `none` when the pop
raises `IndexError` (empty segment list, or first-longest segment empty). -/
def popLongest (seqs : List (List Nat)) : Option (List (List Nat)) :=
  match firstLongestIdx seqs with
  | none => none
  | some i =>
    match seqs.getD i [] with
    | [] => none
    | _ :: t => some (seqs.set i t)

/-- Outcome of the `while` loop: normal return, an `IndexError` raised with
the segments in the state they had at the raise, or fuel exhaustion
(shown unreachable for sufficient fuel). -/
inductive TruncRes where
  | ok (seqs : List (List Nat)) : TruncRes
  | indexError (seqs : List (List Nat)) : TruncRes
  | outOfFuel : TruncRes
deriving DecidableEq

/-- The `while sum(len(s) for s in seqs) > max_len` loop, fuelled. -/
def truncLoop : Nat → Int → List (List Nat) → TruncRes
  | 0, _, _ => .outOfFuel
  | fuel + 1, max_len, seqs =>
    if max_len < (totalLen seqs : Int) then
      match popLongest seqs with
      | none => .indexError seqs
      | some seqs2 => truncLoop fuel max_len seqs2
    else .ok seqs

/-- `truncate_multiple_sequences`.  One fuel unit per removed token plus one
for the final test always suffices (each successful iteration removes
exactly one token). -/
def truncate_multiple_sequences (seqs : List (List Nat)) (max_len : Int) : TruncRes :=
  truncLoop (totalLen seqs + 1) max_len seqs

/-! ## sample_sequence loop control (gpt2generator.py lines 54-119)

The per-step scoring/penalty/filter/sample pipeline is abstracted as a
function `pick : Nat → List Nat → Nat` from the step index and the sequence
generated so far to the selected token (the spec quantifies over scoring
models).  The embedding keeps the control flow exactly: `for j in
range(length)`, append the selected token, then
`if (stop_tokens is not None) and (j > 4) and (next_token in stop_tokens): break`. -/

def sampleSeqAux (pick : Nat → List Nat → Nat) (stop : Option (List Nat)) :
    Nat → Nat → List Nat → List Nat
  | 0, _, gen => gen
  | fuel + 1, j, gen =>
    let t := pick j gen
    let gen2 := gen ++ [t]
    if stop.isSome ∧ 4 < j ∧ t ∈ stop.getD [] then gen2
    else sampleSeqAux pick stop fuel (j + 1) gen2

/-- `sample_sequence` with `num_samples = 1`: runs the decode loop `length`
times starting from `context`, stopping early on a stop token after step 4. -/
def sample_sequence (pick : Nat → List Nat → Nat) (length : Nat)
    (context : List Nat) (stop : Option (List Nat)) : List Nat :=
  sampleSeqAux pick stop length 0 context

/-! ## Repetition penalty (gpt2generator.py lines 91-94)

```python
for k in set(generated[i].tolist()):
    next_token_logits[i, k] /= repetition_penalty
```

Iterating over the set of generated tokens divides the score of each
distinct generated token exactly once; `List.dedup` plays the role of
`set(...)`. -/

def applyRepetitionPenalty (scores : List ℚ) (generated : List Nat)
    (penalty : ℚ) : List ℚ :=
  generated.dedup.foldl (fun sc k => sc.set k (sc.getD k 0 / penalty)) scores

/-! ## top_k_top_p_filtering (gpt2generator.py lines 21-51)

The exponential inside `F.softmax` is a parameter `E : ℚ → ℚ` (assumed
positive in the theorems); its value at the `-inf` sentinel is `0`, as
`exp(-inf) = 0`. -/

def EbotF (E : ℚ → ℚ) : WithBot ℚ → ℚ :=
  WithBot.recBotCoe 0 E

/-- `torch.sort(logits, descending=True)` values only. -/
def sortDescBot (l : List (WithBot ℚ)) : List (WithBot ℚ) :=
  l.mergeSort (fun a b => decide (b ≤ a))

/-- Lines 30-34: `top_k = min(top_k, logits.size(-1))`; if positive, mask
every entry strictly below the `top_k`-th largest value to `-inf`. -/
def topKStage (logits : List (WithBot ℚ)) (top_k : Nat) : List (WithBot ℚ) :=
  let k := min top_k logits.length
  if 0 < k then
    let kth := (sortDescBot logits).getD (k - 1) ⊥
    logits.map (fun x => if x < kth then ⊥ else x)
  else logits

/-- `torch.sort(logits, descending=True)` as (original index, value) pairs,
so that the `scatter` back to original indexing can be expressed. -/
def sortedEnum (logits : List (WithBot ℚ)) : List (Nat × WithBot ℚ) :=
  logits.enum.mergeSort (fun a b => decide (b.2 ≤ a.2))

/-- `F.softmax(l, dim=-1)` with `E` in place of `exp`. -/
def softmaxBot (E : ℚ → ℚ) (l : List (WithBot ℚ)) : List ℚ :=
  l.map (fun x => EbotF E x / (l.map (EbotF E)).sum)

def cumAux (c : ℚ) : List ℚ → List ℚ
  | [] => []
  | x :: xs => (c + x) :: cumAux (c + x) xs

/-- `torch.cumsum(l, dim=-1)`. -/
def cumsum (l : List ℚ) : List ℚ :=
  cumAux 0 l

/-- Lines 43-44: shift the removal flags one position right and clear the
first flag, keeping the first token above the threshold. -/
def pyShiftMask : List Bool → List Bool
  | [] => []
  | b :: bs => false :: (b :: bs).dropLast

/-- Induction-friendly reformulation of the shifted threshold mask of
lines 41-44 (proved equal to it): entry `t` is `p < c + (sum of the
first t entries)`, i.e. whether the cumulative mass strictly before
entry `t` (offset by `c`) already exceeds the threshold. -/
def maskAux (p : ℚ) : ℚ → List ℚ → List Bool
  | _, [] => []
  | c, x :: xs => decide (p < c) :: maskAux p (c + x) xs

/-- Sum of the entries of a rational list at the positions flagged by a
Boolean mask (used to measure the probability mass of removed tokens). -/
def sumZipIf : List ℚ → List Bool → ℚ
  | [], _ => 0
  | _ :: _, [] => 0
  | x :: xs, b :: bs => (if b then x else 0) + sumZipIf xs bs

/-- Softmax of the descending-sorted logits (line 38, inner term). -/
def topPProbs (E : ℚ → ℚ) (logits : List (WithBot ℚ)) : List ℚ :=
  softmaxBot E ((sortedEnum logits).map (fun q => q.2))

/-- Lines 38-44: removal flags in sorted order
(`cumulative_probs > top_p`, shifted right, first cleared). -/
def topPMask (E : ℚ → ℚ) (p : ℚ) (logits : List (WithBot ℚ)) : List Bool :=
  pyShiftMask ((cumsum (topPProbs E logits)).map (fun c => decide (p < c)))

/-- Lines 47-49: the `scatter` from sorted positions back to original
indexing — original index `i` is removed exactly when the sorted position
holding index `i` carries a removal flag. -/
def lookupRemoved (si : List (Nat × WithBot ℚ)) (rm : List Bool) (i : Nat) : Bool :=
  match (si.zip rm).find? (fun q => q.1.1 == i) with
  | some q => q.2
  | none => false

/-- Lines 36-50: the nucleus (top-p) filtering stage. -/
def topPStage (E : ℚ → ℚ) (p : ℚ) (logits : List (WithBot ℚ)) : List (WithBot ℚ) :=
  logits.enum.map (fun q =>
    if lookupRemoved (sortedEnum logits) (topPMask E p logits) q.1 then ⊥ else q.2)

/-- Lines 21-51: `top_k_top_p_filtering` — the top-k stage (applied when
`top_k > 0` after clamping), then the top-p stage (applied when `top_p > 0`). -/
def top_k_top_p_filtering (E : ℚ → ℚ) (logits : List (WithBot ℚ))
    (top_k : Nat) (top_p : ℚ) : List (WithBot ℚ) :=
  let logits1 := topKStage logits top_k
  if 0 < top_p then topPStage E top_p logits1 else logits1

/-- `top_k_top_p_filtering` applied to a plain rational score vector (the
finite float scores of line 96, embedded as non-bottom entries). -/
def filterScores (E : ℚ → ℚ) (l : List ℚ) (top_k : Nat) (top_p : ℚ) :
    List (WithBot ℚ) :=
  top_k_top_p_filtering E (l.map (fun x : ℚ => (x : WithBot ℚ))) top_k top_p

/-! ## Per-step selection in sample_sequence (gpt2generator.py lines 87-104)

`torch.multinomial` draws from the given distribution; it is abstracted as
a function `sampler` receiving exactly the softmax-normalised filtered
scores the code passes to it.  `torch.argmax` returns an index of a maximal
entry; it is modelled as the first index attaining the maximum. -/

/-- Line 87-89: `next_token_logits = outputs[0][:, -1, :] / (temperature if
temperature > 0 else 1.0)`. -/
def scaleLogits (logits : List ℚ) (temperature : ℚ) : List ℚ :=
  logits.map (fun x => x / (if 0 < temperature then temperature else 1))

def maxLogit (l : List (WithBot ℚ)) : WithBot ℚ :=
  l.foldr max ⊥

/-- `torch.argmax` as the first index attaining the maximum. -/
def argmaxIdx (l : List (WithBot ℚ)) : Nat :=
  l.indexOf (maxLogit l)

/-- Lines 87-104: one selection step — scale, penalise, filter, then either
greedy argmax (`temperature == 0`) or sample from the softmax of the
filtered scores. -/
def sampleStep (E : ℚ → ℚ) (sampler : List ℚ → Nat) (raw : List ℚ)
    (temperature penalty : ℚ) (generated : List Nat)
    (top_k : Nat) (top_p : ℚ) : Nat :=
  let scaled := scaleLogits raw temperature
  let pen := applyRepetitionPenalty scaled generated penalty
  let filtered := top_k_top_p_filtering E (pen.map (fun x : ℚ => (x : WithBot ℚ))) top_k top_p
  if temperature = 0 then argmaxIdx filtered
  else sampler (softmaxBot E filtered)

/-! ## String post-processing (gpt2generator.py lines 183-298)

Text is modelled as `List Char`.  `str.replace` replaces all
non-overlapping occurrences left to right; `str.find` returns the first
occurrence. -/

/-- Does `pat` occur at the head of `s`? -/
def matchesAt : List Char → List Char → Bool
  | [], _ => true
  | _ :: _, [] => false
  | p :: ps, c :: cs => p = c && matchesAt ps cs

/-- Does `pat` occur anywhere in `s` (Python `pat in s`)? -/
def occursIn (pat : List Char) : List Char → Bool
  | [] => matchesAt pat []
  | c :: cs => matchesAt pat (c :: cs) || occursIn pat cs

/-- Python `s.find(pat)`, as `none` for `-1`. -/
def pyFind (pat : List Char) : List Char → Option Nat
  | [] => if matchesAt pat [] then some 0 else none
  | c :: cs =>
    if matchesAt pat (c :: cs) then some 0
    else (pyFind pat cs).map (fun i => i + 1)

/-- Scanner for `pyReplace`: `k` counts characters of an already-emitted
match that remain to be skipped. -/
def pyRepAux (pat rep : List Char) : Nat → List Char → List Char
  | _, [] => []
  | k + 1, _ :: rest => pyRepAux pat rep k rest
  | 0, c :: rest =>
    if pat ≠ [] ∧ matchesAt pat (c :: rest) then
      rep ++ pyRepAux pat rep (pat.length - 1) rest
    else
      c :: pyRepAux pat rep 0 rest

/-- Python `s.replace(pat, rep)` for a non-empty pattern: replace all
non-overlapping occurrences, scanning left to right.  (On an empty pattern
this is the identity; all patterns used by the source are non-empty.) -/
def pyReplace (pat rep : List Char) (s : List Char) : List Char :=
  pyRepAux pat rep 0 s

/-- Modelled from the spec: `cut_trailing_sentence` lives in
`story/utils.py`, which is not under `src/`.  Per the spec it drops all
content after the last sentence-ending punctuation mark, and when
`allow_action` is set the action marker `>` also counts as a valid
sentence ending. -/
def sentenceEnders (allow_action : Bool) : List Char :=
  if allow_action then ['>', '.', '?', '!'] else ['.', '?', '!']

/-- Modelled from the spec: keep the text up to and including the last
sentence-ending character; if none is present the whole text is dropped. -/
def cut_trailing_sentence (s : List Char) (allow_action : Bool) : List Char :=
  (s.reverse.dropWhile (fun c => !((sentenceEnders allow_action).contains c))).reverse

def lowerFirst : List Char → List Char
  | [] => []
  | c :: rest => c.toLower :: rest

/-- Lines 190-211: `result_replace` — cut the trailing incomplete sentence,
then the four `str.replace` rewrites, then restore a lowercase first
letter when the original first letter was not a capital. -/
def result_replace (s : List Char) (allow_action : Bool) : List Char :=
  match cut_trailing_sentence s allow_action with
  | [] => []
  | c :: rest =>
    let cap := c.isUpper
    let r1 := pyReplace ['.', '"'] ['"', '.'] (c :: rest)
    let r2 := pyReplace ['#'] [] r1
    let r3 := pyReplace ['*'] [] r2
    let r4 := pyReplace ['\n', '\n'] ['\n'] r3
    if cap then r4 else lowerFirst r4

/-- Lines 183-188: `prompt_replace` strips one single trailing space. -/
def prompt_replace (p : List Char) : List Char :=
  if p.getLast? = some ' ' then p.dropLast else p

/-! ## Stop-token text truncation in generate_raw (lines 244-261)

```python
if self.stop_token:
    index = text.find(self.stop_token)
    if index == -1: index = None
    text = text[:index]
if stop_tokens is not None:
    for stop_token in stop_tokens:
        index = text.find(self.stop_token)
        if index == -1: index = None
        text = text[:index]
```

Note the inner loop searches `self.stop_token` (the end-of-text marker),
not the loop variable `stop_token` — the embedding reproduces this
verbatim. -/

/-- One `text = text[:text.find(tok)]`-with-`-1`-guard step. -/
def pyCutAt (tok : List Char) (text : List Char) : List Char :=
  match pyFind tok text with
  | some i => text.take i
  | none => text

/-- Lines 250-260: the stop-token text truncation of `generate_raw`.
`stop_token_attr` is `self.stop_token`; `stop_tokens` is the optional list
of stop-token ids the loop variable ranges over (unused by the search,
exactly as in the source). -/
def generateRawStopCut (stop_token_attr : List Char)
    (stop_tokens : Option (List Nat)) (text : List Char) : List Char :=
  let text1 := if stop_token_attr ≠ [] then pyCutAt stop_token_attr text else text
  match stop_tokens with
  | none => text1
  | some sts => sts.foldl (fun t _st => pyCutAt stop_token_attr t) text1

/-! ## generate (gpt2generator.py lines 263-298)

`generate_raw` (tokenisation, the model call, decoding) is abstracted as a
function `raw` from the prompt segments to the decoded text; everything
else follows the source: `prompt_replace` each segment, post-process with
`result_replace`, rerun with `allow_action=True` when `depth > 6` yielded
nothing, and on empty output recurse with the marker `" {depth}"` appended
to the prompt until `depth` reaches 20. -/

def generate (raw : List (List Char) → List Char)
    (prompt : List (List Char)) (depth : Nat) : List Char :=
  let prompt2 := prompt.map prompt_replace
  let text := raw prompt2
  let result0 := result_replace text false
  let result := if 6 < depth ∧ result0 = [] then result_replace text true else result0
  if result = [] then
    if h : depth < 20 then
      generate raw (prompt2 ++ [' ' :: (Nat.repr depth).data]) (depth + 1)
    else result
  else result
termination_by 20 - depth
decreasing_by
  omega

/-- The number of recursive calls `generate` performs (same control flow as
`generate`, counting instead of returning text). -/
def generateCalls (raw : List (List Char) → List Char)
    (prompt : List (List Char)) (depth : Nat) : Nat :=
  let prompt2 := prompt.map prompt_replace
  let text := raw prompt2
  let result0 := result_replace text false
  let result := if 6 < depth ∧ result0 = [] then result_replace text true else result0
  if result = [] then
    if h : depth < 20 then
      generateCalls raw (prompt2 ++ [' ' :: (Nat.repr depth).data]) (depth + 1) + 1
    else 0
  else 0
termination_by 20 - depth
decreasing_by
  omega

/-! # Theorems -/

/-! ## C3: sample_sequence length bound and immediate stop -/

theorem sampleSeqAux_length_le (pick : Nat → List Nat → Nat)
    (stop : Option (List Nat)) :
    ∀ (fuel j : Nat) (gen : List Nat),
      (sampleSeqAux pick stop fuel j gen).length ≤ gen.length + fuel := by
  intro fuel
  induction fuel with
  | zero => intro j gen; simp [sampleSeqAux]
  | succ n ih =>
    intro j gen
    simp only [sampleSeqAux]
    split
    · simp
    · have h := ih (j + 1) (gen ++ [pick j gen])
      simp only [List.length_append, List.length_cons, List.length_nil] at h
      omega

/-- C3: the decode loop appends at most `length` new tokens beyond the
initial context, and whenever stop tokens are configured, the step index
exceeds the minimum step count 4, and the selected token is a stop token,
the loop returns immediately with that token appended and nothing after it. -/
theorem claim_C3 :
    (∀ (pick : Nat → List Nat → Nat) (stop : Option (List Nat))
       (length : Nat) (context : List Nat),
       (sample_sequence pick length context stop).length ≤ context.length + length) ∧
    (∀ (pick : Nat → List Nat → Nat) (s : List Nat) (fuel j : Nat) (gen : List Nat),
       4 < j → pick j gen ∈ s →
       sampleSeqAux pick (some s) (fuel + 1) j gen = gen ++ [pick j gen]) := by
  constructor
  · intro pick stop length context
    exact sampleSeqAux_length_le pick stop length 0 context
  · intro pick s fuel j gen hj hmem
    simp only [sampleSeqAux]
    rw [if_pos]
    exact ⟨rfl, hj, hmem⟩

theorem claim_C3_witness :
    ((sample_sequence (fun _ _ => 7) 3 [1, 2] (some [9])).length ≤ 2 + 3) ∧
    (4 < 5 ∧ 7 ∈ [7]) ∧
    sampleSeqAux (fun _ _ => 7) (some [7]) (2 + 1) 5 [1, 2, 3] = [1, 2, 3, 7] :=
  ⟨claim_C3.1 (fun _ _ => 7) (some [9]) 3 [1, 2],
   ⟨by decide, by decide⟩,
   claim_C3.2 (fun _ _ => 7) [7] 2 5 [1, 2, 3] (by decide) (by decide)⟩

/-! ## C7: repetition penalty -/

theorem penalty_foldl_length (penalty : ℚ) :
    ∀ (L : List Nat) (sc : List ℚ),
      (L.foldl (fun sc k => sc.set k (sc.getD k 0 / penalty)) sc).length = sc.length := by
  intro L
  induction L with
  | nil => intro sc; rfl
  | cons k L ih =>
    intro sc
    simp only [List.foldl_cons]
    rw [ih]
    exact List.length_set ..

theorem penalty_foldl_get (penalty : ℚ) :
    ∀ (L : List Nat) (sc : List ℚ), L.Nodup →
      ∀ (j : Nat) (h : j < sc.length)
        (h2 : j < (L.foldl (fun sc k => sc.set k (sc.getD k 0 / penalty)) sc).length),
        (L.foldl (fun sc k => sc.set k (sc.getD k 0 / penalty)) sc).get ⟨j, h2⟩ =
          if j ∈ L then sc.get ⟨j, h⟩ / penalty else sc.get ⟨j, h⟩ := by
  intro L
  induction L with
  | nil => intro sc _ j h h2; simp
  | cons k L ih =>
    intro sc hnd j h h2
    have hk : k ∉ L := (List.nodup_cons.mp hnd).1
    have hL : L.Nodup := (List.nodup_cons.mp hnd).2
    simp only [List.foldl_cons] at h2 ⊢
    have hlen : j < (sc.set k (sc.getD k 0 / penalty)).length := by
      rw [List.length_set]; exact h
    rw [ih (sc.set k (sc.getD k 0 / penalty)) hL j hlen h2]
    by_cases hjL : j ∈ L
    · have hjk : j ≠ k := fun he => hk (he ▸ hjL)
      simp only [List.get_eq_getElem, List.getElem_set_ne (fun he => hjk he.symm)]
      simp [hjL, List.mem_cons]
    · by_cases hjk : j = k
      · subst hjk
        simp only [List.get_eq_getElem, List.getElem_set_self]
        rw [List.getD_eq_getElem sc 0 h]
        simp [hjL]
      · simp only [List.get_eq_getElem, List.getElem_set_ne (fun he => hjk he.symm)]
        simp [hjL, hjk, List.mem_cons]

theorem applyRepetitionPenalty_get (scores : List ℚ) (generated : List Nat)
    (penalty : ℚ) (j : Nat) (h : j < scores.length)
    (h2 : j < (applyRepetitionPenalty scores generated penalty).length) :
    (applyRepetitionPenalty scores generated penalty).get ⟨j, h2⟩ =
      if j ∈ generated then scores.get ⟨j, h⟩ / penalty else scores.get ⟨j, h⟩ := by
  unfold applyRepetitionPenalty at h2 ⊢
  rw [penalty_foldl_get penalty generated.dedup scores (List.nodup_dedup generated) j h h2]
  simp [List.mem_dedup]

theorem applyRepetitionPenalty_one (scores : List ℚ) (generated : List Nat) :
    applyRepetitionPenalty scores generated 1 = scores := by
  have hlen : (applyRepetitionPenalty scores generated 1).length = scores.length :=
    penalty_foldl_length 1 generated.dedup scores
  apply List.ext_get hlen
  intro j h2 h
  rw [applyRepetitionPenalty_get scores generated 1 j h h2]
  split <;> simp

/-- C7: the repetition penalty with `penalty = 1.0` is a no-op (and hence
the downstream filtered distribution is unchanged); for any penalty, in
particular `penalty > 1.0`, the score of every distinct token occurring in
the generated sequence is divided by the penalty and every other score is
unchanged. -/
theorem claim_C7 :
    (∀ (scores : List ℚ) (generated : List Nat),
       applyRepetitionPenalty scores generated 1 = scores) ∧
    (∀ (E : ℚ → ℚ) (k : Nat) (p : ℚ) (scores : List ℚ) (generated : List Nat),
       top_k_top_p_filtering E
           ((applyRepetitionPenalty scores generated 1).map (fun x : ℚ => (x : WithBot ℚ))) k p =
         top_k_top_p_filtering E (scores.map (fun x : ℚ => (x : WithBot ℚ))) k p) ∧
    (∀ (penalty : ℚ), 1 < penalty →
       ∀ (scores : List ℚ) (generated : List Nat) (j : Nat)
         (h : j < scores.length)
         (h2 : j < (applyRepetitionPenalty scores generated penalty).length),
         (applyRepetitionPenalty scores generated penalty).get ⟨j, h2⟩ =
           if j ∈ generated then scores.get ⟨j, h⟩ / penalty
           else scores.get ⟨j, h⟩) := by
  refine ⟨applyRepetitionPenalty_one, ?_, ?_⟩
  · intro E k p scores generated
    rw [applyRepetitionPenalty_one]
  · intro penalty _ scores generated j h h2
    exact applyRepetitionPenalty_get scores generated penalty j h h2

theorem claim_C7_witness :
    (1 : ℚ) < 2 ∧
    (applyRepetitionPenalty [4, 6] [1, 1, 5] 2).get ⟨1, by decide⟩ =
      if 1 ∈ [1, 1, 5] then ([4, 6] : List ℚ).get ⟨1, by decide⟩ / 2
      else ([4, 6] : List ℚ).get ⟨1, by decide⟩ :=
  ⟨by norm_num,
   claim_C7.2.2 2 (by norm_num) [4, 6] [1, 1, 5] 1 (by decide) (by decide)⟩

/-! ## C4 and C10: truncate_multiple_sequences -/

theorem firstLongestIdx_cons_ne (s : List Nat) (rest : List (List Nat)) :
    firstLongestIdx (s :: rest) ≠ none := by
  intro hnone
  cases hfr : firstLongestIdx rest with
  | none => simp [firstLongestIdx, hfr] at hnone
  | some j =>
    simp only [firstLongestIdx, hfr] at hnone
    split at hnone <;> simp at hnone

theorem firstLongestIdx_spec :
    ∀ (seqs : List (List Nat)) (i : Nat), firstLongestIdx seqs = some i →
      i < seqs.length ∧
      (∀ (j : Nat) (h : j < seqs.length),
        (seqs.get ⟨j, h⟩).length ≤ (seqs.getD i []).length) ∧
      (∀ (j : Nat) (h : j < seqs.length), j < i →
        (seqs.get ⟨j, h⟩).length < (seqs.getD i []).length) := by
  intro seqs
  induction seqs with
  | nil => intro i h; exact absurd h (by simp [firstLongestIdx])
  | cons s rest ih =>
    intro i h
    cases hr : firstLongestIdx rest with
    | none =>
      simp only [firstLongestIdx, hr] at h
      simp only [Option.some.injEq] at h
      subst h
      have hre : rest = [] := by
        cases rest with
        | nil => rfl
        | cons a b => exact absurd hr (firstLongestIdx_cons_ne a b)
      subst hre
      refine ⟨by simp, ?_, ?_⟩
      · intro j hj
        have hj0 : j = 0 := by simp only [List.length_cons, List.length_nil] at hj; omega
        subst hj0
        simp [List.getD]
      · intro j hj hji
        omega
    | some j =>
      simp only [firstLongestIdx, hr] at h
      obtain ⟨hjlt, hmax, hstrict⟩ := ih j hr
      by_cases hle : (rest.getD j []).length ≤ s.length
      · rw [if_pos hle] at h
        simp only [Option.some.injEq] at h
        subst h
        refine ⟨by simp, ?_, ?_⟩
        · intro t ht
          cases t with
          | zero => simp [List.getD]
          | succ t2 =>
            have h2 : t2 < rest.length := by simpa using ht
            have := hmax t2 h2
            simp only [List.getD_cons_zero, List.get_eq_getElem,
              List.getElem_cons_succ]
            exact le_trans this hle
        · intro t ht hti
          omega
      · rw [if_neg hle] at h
        push_neg at hle
        simp only [Option.some.injEq] at h
        subst h
        refine ⟨by simpa using hjlt, ?_, ?_⟩
        · intro t ht
          cases t with
          | zero =>
            simp only [List.getD_cons_succ, List.get_eq_getElem, List.getElem_cons_zero]
            omega
          | succ t2 =>
            have h2 : t2 < rest.length := by simpa using ht
            have := hmax t2 h2
            simpa using this
        · intro t ht hti
          cases t with
          | zero =>
            simp only [List.getD_cons_succ, List.get_eq_getElem, List.getElem_cons_zero]
            omega
          | succ t2 =>
            have h2 : t2 < rest.length := by simpa using ht
            have := hstrict t2 h2 (by omega)
            simpa using this

theorem totalLen_set (seqs : List (List Nat)) :
    ∀ (i : Nat) (x : List Nat), i < seqs.length →
      totalLen (seqs.set i x) + (seqs.getD i []).length = totalLen seqs + x.length := by
  induction seqs with
  | nil => intro i x h; simp at h
  | cons s rest ih =>
    intro i x h
    cases i with
    | zero => simp [totalLen]; omega
    | succ i2 =>
      have h2 : i2 < rest.length := by simpa using h
      have := ih i2 x h2
      simp only [List.set_cons_succ, List.getD_cons_succ, totalLen, List.map_cons,
        List.sum_cons] at this ⊢
      omega

theorem totalLen_eq_zero (seqs : List (List Nat)) (h : totalLen seqs = 0) :
    ∀ seg ∈ seqs, seg = [] := by
  intro seg hseg
  unfold totalLen at h
  have : seg.length = 0 :=
    List.sum_eq_zero_iff.mp h seg.length (List.mem_map_of_mem List.length hseg)
  exact List.length_eq_zero.mp this

theorem totalLen_pos_nonempty (seqs : List (List Nat)) (h : 0 < totalLen seqs) :
    ∃ seg ∈ seqs, seg ≠ [] := by
  by_contra hc
  push_neg at hc
  have : totalLen seqs = 0 := by
    unfold totalLen
    apply List.sum_eq_zero
    intro n hn
    obtain ⟨seg, hseg, hlen⟩ := List.mem_map.mp hn
    rw [← hlen, hc seg hseg]
    rfl
  omega

theorem popLongest_spec (seqs : List (List Nat)) (h : 0 < totalLen seqs) :
    ∃ (i : Nat), firstLongestIdx seqs = some i ∧
      popLongest seqs = some (seqs.set i ((seqs.getD i []).tail)) ∧
      totalLen (seqs.set i ((seqs.getD i []).tail)) + 1 = totalLen seqs ∧
      (seqs.set i ((seqs.getD i []).tail)).length = seqs.length ∧
      (∀ (j : Nat) (h1 : j < (seqs.set i ((seqs.getD i []).tail)).length)
         (h2 : j < seqs.length),
         ((seqs.set i ((seqs.getD i []).tail)).get ⟨j, h1⟩).IsSuffix
           (seqs.get ⟨j, h2⟩)) := by
  have hne : seqs ≠ [] := by
    intro he; subst he; simp [totalLen] at h
  obtain ⟨i, hi⟩ : ∃ i, firstLongestIdx seqs = some i := by
    cases seqs with
    | nil => exact absurd rfl hne
    | cons a b =>
      cases hfi : firstLongestIdx (a :: b) with
      | none => exact absurd hfi (firstLongestIdx_cons_ne a b)
      | some i => exact ⟨i, rfl⟩
  obtain ⟨hilt, hmax, _⟩ := firstLongestIdx_spec seqs i hi
  have hipos : 0 < (seqs.getD i []).length := by
    obtain ⟨seg, hseg, hsne⟩ := totalLen_pos_nonempty seqs h
    obtain ⟨j, hj, hjget⟩ := List.getElem_of_mem hseg
    have hb := hmax j hj
    simp only [List.get_eq_getElem] at hb
    rw [hjget] at hb
    have hs : 0 < seg.length := List.length_pos.mpr hsne
    omega
  obtain ⟨c, t, hct⟩ : ∃ c t, seqs.getD i [] = c :: t := by
    cases hg : seqs.getD i [] with
    | nil => rw [hg] at hipos; simp at hipos
    | cons c t => exact ⟨c, t, rfl⟩
  refine ⟨i, hi, ?_, ?_, ?_, ?_⟩
  · simp only [popLongest, hi, hct, List.tail_cons]
  · have := totalLen_set seqs i ((seqs.getD i []).tail) hilt
    rw [hct] at this ⊢
    simp only [List.tail_cons, List.length_cons] at this ⊢
    omega
  · exact List.length_set ..
  · intro j h1 h2
    by_cases hji : j = i
    · subst hji
      simp only [List.get_eq_getElem, List.getElem_set_self]
      have : seqs.getD j [] = seqs[j] := List.getD_eq_getElem seqs [] h2
      rw [← this]
      exact List.tail_suffix _
    · simp only [List.get_eq_getElem, List.getElem_set_ne (fun he => hji he.symm)]
      exact List.suffix_refl _

theorem truncLoop_ok :
    ∀ (fuel : Nat) (max_len : Int) (seqs : List (List Nat)),
      totalLen seqs < fuel → 0 ≤ max_len →
      ∃ out, truncLoop fuel max_len seqs = .ok out ∧
        (totalLen out : Int) ≤ max_len ∧ out.length = seqs.length ∧
        (∀ (j : Nat) (h1 : j < out.length) (h2 : j < seqs.length),
          (out.get ⟨j, h1⟩).IsSuffix (seqs.get ⟨j, h2⟩)) := by
  intro fuel
  induction fuel with
  | zero => intro max_len seqs hf hm; omega
  | succ n ih =>
    intro max_len seqs hf hm
    by_cases hcond : max_len < (totalLen seqs : Int)
    · have hpos : 0 < totalLen seqs := by
        by_contra hc
        push_neg at hc
        have h0 : totalLen seqs = 0 := by omega
        rw [h0] at hcond
        simp only [Nat.cast_zero] at hcond
        omega
      obtain ⟨i, hi, hpop, hdec, hlen, hsuf⟩ := popLongest_spec seqs hpos
      set seqs2 := seqs.set i ((seqs.getD i []).tail) with hs2
      have hf2 : totalLen seqs2 < n := by omega
      obtain ⟨out, hout, hole, holen, hosuf⟩ := ih max_len seqs2 hf2 hm
      refine ⟨out, ?_, hole, by rw [holen, hlen], ?_⟩
      · simp only [truncLoop]
        rw [if_pos hcond, hpop]
        exact hout
      · intro j h1 h2
        have h3 : j < seqs2.length := by rw [hlen]; exact h2
        exact (hosuf j h1 h3).trans (hsuf j h3 h2)
    · refine ⟨seqs, ?_, by omega, rfl, ?_⟩
      · simp only [truncLoop]
        rw [if_neg hcond]
      · intro j h1 h2
        exact List.suffix_refl _

theorem popLongest_none_of_all_empty (seqs : List (List Nat))
    (h : totalLen seqs = 0) : popLongest seqs = none := by
  cases hfi : firstLongestIdx seqs with
  | none => simp only [popLongest, hfi]
  | some i =>
    have hilt := (firstLongestIdx_spec seqs i hfi).1
    have hge : seqs.getD i [] = [] := by
      have hmem : seqs.getD i [] ∈ seqs := by
        rw [List.getD_eq_getElem seqs [] hilt]
        exact List.getElem_mem hilt
      exact totalLen_eq_zero seqs h _ hmem
    simp only [popLongest, hfi, hge]

theorem truncLoop_err :
    ∀ (fuel : Nat) (max_len : Int) (seqs : List (List Nat)),
      totalLen seqs < fuel → max_len < 0 →
      ∃ s2, truncLoop fuel max_len seqs = .indexError s2 ∧
        (∀ seg ∈ s2, seg = []) ∧ s2.length = seqs.length := by
  intro fuel
  induction fuel with
  | zero => intro max_len seqs hf hm; omega
  | succ n ih =>
    intro max_len seqs hf hm
    have hcond : max_len < (totalLen seqs : Int) := by
      have : (0 : Int) ≤ (totalLen seqs : Int) := Int.natCast_nonneg _
      omega
    by_cases hpos : 0 < totalLen seqs
    · obtain ⟨i, hi, hpop, hdec, hlen, hsuf⟩ := popLongest_spec seqs hpos
      set seqs2 := seqs.set i ((seqs.getD i []).tail) with hs2
      have hf2 : totalLen seqs2 < n := by omega
      obtain ⟨s2, hout, hempty, holen⟩ := ih max_len seqs2 hf2 hm
      refine ⟨s2, ?_, hempty, by rw [holen, hlen]⟩
      simp only [truncLoop]
      rw [if_pos hcond, hpop]
      exact hout
    · push_neg at hpos
      have hz : totalLen seqs = 0 := by omega
      refine ⟨seqs, ?_, totalLen_eq_zero seqs hz, rfl⟩
      simp only [truncLoop]
      rw [if_pos hcond, popLongest_none_of_all_empty seqs hz]

/-- C4: with a nonnegative budget the truncation loop returns normally with
total length within the budget, shortening only from the front (every
output segment is a suffix of the corresponding input segment, in
unchanged order), and each iteration pops the first token of the first
longest segment (ties broken by first-encountered order). -/
theorem claim_C4 :
    (∀ (seqs : List (List Nat)) (max_len : Int), 0 ≤ max_len →
       ∃ out, truncate_multiple_sequences seqs max_len = .ok out ∧
         (totalLen out : Int) ≤ max_len ∧ out.length = seqs.length ∧
         (∀ (j : Nat) (h1 : j < out.length) (h2 : j < seqs.length),
           (out.get ⟨j, h1⟩).IsSuffix (seqs.get ⟨j, h2⟩))) ∧
    (∀ (seqs : List (List Nat)) (i : Nat), firstLongestIdx seqs = some i →
       i < seqs.length ∧
       (∀ (j : Nat) (h : j < seqs.length),
         (seqs.get ⟨j, h⟩).length ≤ (seqs.getD i []).length) ∧
       (∀ (j : Nat) (h : j < seqs.length), j < i →
         (seqs.get ⟨j, h⟩).length < (seqs.getD i []).length)) ∧
    (∀ (seqs : List (List Nat)), 0 < totalLen seqs →
       ∃ (i : Nat), firstLongestIdx seqs = some i ∧
         popLongest seqs = some (seqs.set i ((seqs.getD i []).tail))) := by
  refine ⟨?_, firstLongestIdx_spec, ?_⟩
  · intro seqs max_len hm
    exact truncLoop_ok (totalLen seqs + 1) max_len seqs (by omega) hm
  · intro seqs hpos
    obtain ⟨i, hi, hpop, _⟩ := popLongest_spec seqs hpos
    exact ⟨i, hi, hpop⟩

theorem claim_C4_witness :
    (0 : Int) ≤ 2 ∧
    (∃ out, truncate_multiple_sequences [[1, 2, 9], [3]] 2 = .ok out ∧
      (totalLen out : Int) ≤ 2 ∧ out.length = [[1, 2, 9], [3]].length ∧
      (∀ (j : Nat) (h1 : j < out.length) (h2 : j < [[1, 2, 9], [3]].length),
        (out.get ⟨j, h1⟩).IsSuffix ([[1, 2, 9], [3]].get ⟨j, h2⟩))) :=
  ⟨by decide, claim_C4.1 [[1, 2, 9], [3]] 2 (by decide)⟩

/-- C10: with a negative budget the loop can never exit normally — once all
segments are drained it pops from an empty list, i.e. the run ends in the
`IndexError` outcome with every segment emptied. -/
theorem claim_C10 :
    ∀ (seqs : List (List Nat)) (max_len : Int), max_len < 0 →
      ∃ s2, truncate_multiple_sequences seqs max_len = .indexError s2 ∧
        (∀ seg ∈ s2, seg = []) ∧ s2.length = seqs.length := by
  intro seqs max_len hm
  exact truncLoop_err (totalLen seqs + 1) max_len seqs (by omega) hm

theorem claim_C10_witness :
    (-1 : Int) < 0 ∧
    (∃ s2, truncate_multiple_sequences [[5], [6, 7]] (-1) = .indexError s2 ∧
      (∀ seg ∈ s2, seg = []) ∧ s2.length = [[5], [6, 7]].length) :=
  ⟨by decide, claim_C10 [[5], [6, 7]] (-1) (by decide)⟩

/-! ## C9: result_replace idempotence -/

theorem char_toLower_of_not_upper (c : Char) (h : c.isUpper = false) :
    c.toLower = c := by
  unfold Char.toLower
  rw [if_neg]
  intro hc
  obtain ⟨h1, h2⟩ := hc
  simp only [Char.isUpper, Bool.and_eq_false_iff, decide_eq_false_iff_not] at h
  simp only [Char.toNat, ge_iff_le] at h1 h2
  have hc1 : c.val.toNat = c.val.toBitVec.toNat := rfl
  have f65 : (UInt32.toBitVec 65).toNat = 65 := by decide
  have f90 : (UInt32.toBitVec 90).toNat = 90 := by decide
  rcases h with h | h
  · have := Nat.gt_of_not_le h
    omega
  · have := Nat.gt_of_not_le h
    omega

theorem cut_trailing_sentence_of_ends (s : List Char) (c : Char)
    (hlast : s.getLast? = some c) (hc : (sentenceEnders false).contains c = true) :
    cut_trailing_sentence s false = s := by
  unfold cut_trailing_sentence
  have hhead : s.reverse.head? = some c := by rw [List.head?_reverse]; exact hlast
  cases hrev : s.reverse with
  | nil => rw [hrev] at hhead; simp at hhead
  | cons a rest =>
    rw [hrev] at hhead
    simp only [List.head?_cons, Option.some.injEq] at hhead
    subst hhead
    rw [List.dropWhile_cons, if_neg (by rw [hc]; decide), ← hrev, List.reverse_reverse]

theorem pyReplace_of_not_occurs (pat rep : List Char) :
    ∀ (s : List Char), occursIn pat s = false → pyReplace pat rep s = s := by
  intro s
  unfold pyReplace
  induction s with
  | nil => intro h; rfl
  | cons c rest ih =>
    intro h
    simp only [occursIn, Bool.or_eq_false_iff] at h
    simp only [pyRepAux]
    rw [if_neg (by simp [h.1]), ih h.2]

theorem result_replace_clean (s : List Char) (c : Char)
    (hlast : s.getLast? = some c) (hc : (sentenceEnders false).contains c = true)
    (hq : occursIn ['.', '"'] s = false) (hh : occursIn ['#'] s = false)
    (hs : occursIn ['*'] s = false) (hn : occursIn ['\n', '\n'] s = false) :
    result_replace s false = s := by
  have hcut := cut_trailing_sentence_of_ends s c hlast hc
  cases s with
  | nil => simp at hlast
  | cons a rest =>
    simp only [result_replace, hcut]
    rw [pyReplace_of_not_occurs _ _ _ hq, pyReplace_of_not_occurs _ _ _ hh,
      pyReplace_of_not_occurs _ _ _ hs, pyReplace_of_not_occurs _ _ _ hn]
    by_cases hcap : a.isUpper
    · rw [if_pos hcap]
    · rw [if_neg hcap]
      simp only [lowerFirst]
      rw [char_toLower_of_not_upper a (by simpa using hcap)]

/-- C9 counterexample: `"a\n\n\nb."` is clean in the claim's sense — it ends
with sentence punctuation and contains none of the stripped markup
characters `#`, `*` — yet `result_replace` is not idempotent on it: the
first pass collapses the three newlines to two, the second pass collapses
those to one. -/
theorem claim_C9_counterexample :
    result_replace (result_replace ("a\n\n\nb.".data) false) false ≠
      result_replace ("a\n\n\nb.".data) false ∧
    occursIn ("#".data) ("a\n\n\nb.".data) = false ∧
    occursIn ("*".data) ("a\n\n\nb.".data) = false ∧
    cut_trailing_sentence ("a\n\n\nb.".data) false = "a\n\n\nb.".data := by
  refine ⟨by decide, by decide, by decide, by decide⟩

/-- C9 (amended): on strings that end with a sentence-ending punctuation
mark and contain no `#`, no `*`, no `."` pattern and no doubled newline,
`result_replace` is the identity, and hence idempotent.  (The unamended
claim fails on clean-per-the-claim strings containing tripled newlines or
a `."` created by the quote-reordering rewrite; see the counterexample.) -/
theorem claim_C9 :
    ∀ (s : List Char) (c : Char), s.getLast? = some c →
      (sentenceEnders false).contains c = true →
      occursIn ['.', '"'] s = false → occursIn ['#'] s = false →
      occursIn ['*'] s = false → occursIn ['\n', '\n'] s = false →
      result_replace s false = s ∧
      result_replace (result_replace s false) false = result_replace s false := by
  intro s c hlast hc hq hh hs hn
  have hid := result_replace_clean s c hlast hc hq hh hs hn
  refine ⟨hid, ?_⟩
  rw [hid, hid]

theorem claim_C9_witness :
    ("Ab.".data.getLast? = some '.') ∧
    ((sentenceEnders false).contains '.' = true) ∧
    (occursIn ['.', '"'] "Ab.".data = false) ∧
    (occursIn ['#'] "Ab.".data = false) ∧
    (occursIn ['*'] "Ab.".data = false) ∧
    (occursIn ['\n', '\n'] "Ab.".data = false) ∧
    (result_replace "Ab.".data false = "Ab.".data ∧
      result_replace (result_replace "Ab.".data false) false =
        result_replace "Ab.".data false) :=
  ⟨by decide, by decide, by decide, by decide, by decide, by decide,
   claim_C9 "Ab.".data '.' (by decide) (by decide) (by decide) (by decide)
     (by decide) (by decide)⟩

/-! ## C6: stop-token text truncation in generate_raw -/

/-- C6: the code does not truncate at a configured stop token's text form.
With `self.stop_token = "<|endoftext|>"` and a configured stop-token list
(here the single token id 29, whose decoded text form is `">"`), a decoded
text `"abc>def"` containing `">"` is returned unchanged — the inner loop
searches for `self.stop_token` instead of the decoded stop token, so the
truncation to `"abc"` demanded by the claim never happens. -/
theorem claim_C6 :
    generateRawStopCut "<|endoftext|>".data (some [29]) "abc>def".data =
      "abc>def".data ∧
    occursIn ">".data "abc>def".data = true ∧
    "abc>def".data ≠ "abc".data := by
  refine ⟨by decide, by decide, by decide⟩

/-! ## C5: bounded retry recursion in generate -/

theorem generate_empty_all (raw : List (List Char) → List Char)
    (H : ∀ p, result_replace (raw p) false = [] ∧ result_replace (raw p) true = []) :
    ∀ (n d : Nat) (prompt : List (List Char)), 20 - d ≤ n →
      generate raw prompt d = [] := by
  intro n
  induction n with
  | zero =>
    intro d prompt hd
    rw [generate]
    simp only [(H (prompt.map prompt_replace)).1, (H (prompt.map prompt_replace)).2,
      and_true, ite_self]
    rw [if_pos trivial, dif_neg (by omega)]
  | succ n ih =>
    intro d prompt hd
    rw [generate]
    simp only [(H (prompt.map prompt_replace)).1, (H (prompt.map prompt_replace)).2,
      and_true, ite_self]
    rw [if_pos trivial]
    by_cases hlt : d < 20
    · rw [dif_pos hlt]
      exact ih (d + 1) _ (by omega)
    · rw [dif_neg hlt]

theorem generateCalls_count (raw : List (List Char) → List Char)
    (H : ∀ p, result_replace (raw p) false = [] ∧ result_replace (raw p) true = []) :
    ∀ (n d : Nat) (prompt : List (List Char)), 20 - d = n →
      generateCalls raw prompt d = n := by
  intro n
  induction n with
  | zero =>
    intro d prompt hd
    rw [generateCalls]
    simp only [(H (prompt.map prompt_replace)).1, (H (prompt.map prompt_replace)).2,
      and_true, ite_self]
    rw [if_pos trivial, dif_neg (by omega)]
  | succ n ih =>
    intro d prompt hd
    rw [generateCalls]
    simp only [(H (prompt.map prompt_replace)).1, (H (prompt.map prompt_replace)).2,
      and_true, ite_self]
    rw [if_pos trivial, dif_pos (by omega)]
    rw [ih (d + 1) _ (by omega)]

/-- C5: when post-processing yields empty text at every attempt, `generate`
starting at depth 0 performs exactly 20 recursive retries and returns the
empty string (it is a total function, so it returns rather than raising);
each retry appends the depth-derived marker `" {depth}"` to the (already
prompt-normalised) prompt and increments the depth; and at depths above 6
a non-empty `allow_action=True` post-processing result is returned instead
of retrying. -/
theorem claim_C5 :
    (∀ (raw : List (List Char) → List Char),
       (∀ p, result_replace (raw p) false = [] ∧ result_replace (raw p) true = []) →
       ∀ (prompt : List (List Char)),
         generate raw prompt 0 = [] ∧ generateCalls raw prompt 0 = 20) ∧
    (∀ (raw : List (List Char) → List Char),
       (∀ p, result_replace (raw p) false = [] ∧ result_replace (raw p) true = []) →
       ∀ (prompt : List (List Char)) (d : Nat), d < 20 →
         generate raw prompt d =
           generate raw (prompt.map prompt_replace ++ [' ' :: (Nat.repr d).data]) (d + 1)) ∧
    (∀ (raw : List (List Char) → List Char) (prompt : List (List Char)) (d : Nat),
       6 < d →
       result_replace (raw (prompt.map prompt_replace)) false = [] →
       result_replace (raw (prompt.map prompt_replace)) true ≠ [] →
       generate raw prompt d = result_replace (raw (prompt.map prompt_replace)) true) := by
  refine ⟨?_, ?_, ?_⟩
  · intro raw H prompt
    exact ⟨generate_empty_all raw H 20 0 prompt (by omega),
      generateCalls_count raw H 20 0 prompt (by omega)⟩
  · intro raw H prompt d hd
    conv_lhs => rw [generate]
    simp only [(H (prompt.map prompt_replace)).1, (H (prompt.map prompt_replace)).2,
      and_true, ite_self]
    rw [if_pos trivial, dif_pos hd]
  · intro raw prompt d h6 hfalse htrue
    rw [generate]
    simp only [hfalse, and_true]
    rw [if_pos h6, if_neg htrue]

theorem claim_C5_witness :
    (∀ p : List (List Char),
      result_replace ((fun _ => []) p : List Char) false = [] ∧
      result_replace ((fun _ => []) p : List Char) true = []) ∧
    (generate (fun _ => []) [] 0 = [] ∧ generateCalls (fun _ => []) [] 0 = 20) :=
  ⟨fun _ => ⟨rfl, rfl⟩, claim_C5.1 (fun _ => []) (fun _ => ⟨rfl, rfl⟩) []⟩

/-! ## C8: temperature scaling and selection -/

theorem scaleLogits_zero (raw : List ℚ) : scaleLogits raw 0 = raw := by
  unfold scaleLogits
  have h0 : ¬ (0 : ℚ) < 0 := lt_irrefl 0
  simp [h0]

theorem scaleLogits_pos (raw : List ℚ) (t : ℚ) (ht : 0 < t) :
    scaleLogits raw t = raw.map (fun x => x / t) := by
  unfold scaleLogits
  rw [if_pos ht]

theorem maxLogit_mem : ∀ (l : List (WithBot ℚ)), l ≠ [] → maxLogit l ∈ l := by
  intro l
  induction l with
  | nil => intro h; exact absurd rfl h
  | cons x xs ih =>
    intro _
    cases xs with
    | nil => simp [maxLogit]
    | cons y ys =>
      have hmem := ih (by simp)
      rcases max_choice x (maxLogit (y :: ys)) with hm | hm
      · have hx : maxLogit (x :: y :: ys) = x := by simpa [maxLogit] using hm
        rw [hx]
        exact List.mem_cons_self x _
      · have hx : maxLogit (x :: y :: ys) = maxLogit (y :: ys) := by
          simpa [maxLogit] using hm
        rw [hx]
        exact List.mem_cons_of_mem x hmem

theorem le_maxLogit : ∀ (l : List (WithBot ℚ)) (x : WithBot ℚ), x ∈ l → x ≤ maxLogit l := by
  intro l
  induction l with
  | nil => intro x h; simp at h
  | cons y ys ih =>
    intro x h
    rcases List.mem_cons.mp h with hx | hx
    · subst hx
      exact le_max_left x (maxLogit ys)
    · exact le_trans (ih x hx) (le_max_right y (maxLogit ys))

/-- C8: when `temperature = 0` no scaling happens (division by `1.0`) and
the selected token is an index attaining the maximum of the filtered
scores; when `temperature > 0` every raw score is divided by the
temperature before penalty and filtering and the token is drawn by the
sampler from the softmax-normalised filtered scores. -/
theorem claim_C8 :
    (∀ (raw : List ℚ), scaleLogits raw 0 = raw) ∧
    (∀ (raw : List ℚ) (t : ℚ), 0 < t → scaleLogits raw t = raw.map (fun x => x / t)) ∧
    (∀ (E : ℚ → ℚ) (sampler : List ℚ → Nat) (raw : List ℚ) (penalty : ℚ)
       (generated : List Nat) (top_k : Nat) (top_p : ℚ),
       sampleStep E sampler raw 0 penalty generated top_k top_p =
         argmaxIdx (top_k_top_p_filtering E
           ((applyRepetitionPenalty raw generated penalty).map (fun x : ℚ => (x : WithBot ℚ)))
           top_k top_p)) ∧
    (∀ (l : List (WithBot ℚ)), l ≠ [] →
       argmaxIdx l < l.length ∧
       ∀ (j : Nat) (h : j < l.length), l.get ⟨j, h⟩ ≤ l.getD (argmaxIdx l) ⊥) ∧
    (∀ (E : ℚ → ℚ) (sampler : List ℚ → Nat) (raw : List ℚ) (t penalty : ℚ)
       (generated : List Nat) (top_k : Nat) (top_p : ℚ), 0 < t →
       sampleStep E sampler raw t penalty generated top_k top_p =
         sampler (softmaxBot E (top_k_top_p_filtering E
           ((applyRepetitionPenalty (raw.map (fun x => x / t)) generated penalty).map
             (fun x : ℚ => (x : WithBot ℚ))) top_k top_p))) := by
  refine ⟨scaleLogits_zero, scaleLogits_pos, ?_, ?_, ?_⟩
  · intro E sampler raw penalty generated top_k top_p
    unfold sampleStep
    rw [if_pos rfl, scaleLogits_zero]
  · intro l hne
    have hmem := maxLogit_mem l hne
    have hlt : List.indexOf (maxLogit l) l < l.length := List.indexOf_lt_length.mpr hmem
    refine ⟨hlt, ?_⟩
    intro j h
    have hval : l.getD (argmaxIdx l) ⊥ = maxLogit l := by
      unfold argmaxIdx
      rw [List.getD_eq_getElem l ⊥ hlt]
      exact List.getElem_indexOf hlt
    rw [hval]
    exact le_maxLogit l _ (List.get_mem l j h)
  · intro E sampler raw t penalty generated top_k top_p ht
    unfold sampleStep
    rw [if_neg (ne_of_gt ht), scaleLogits_pos raw t ht]

theorem claim_C8_witness :
    ((0 : ℚ) < 2 ∧ scaleLogits [3, 4] 2 = [3, 4].map (fun x => x / 2)) ∧
    (([⊥, ((1 : ℚ) : WithBot ℚ)] : List (WithBot ℚ)) ≠ [] ∧
      argmaxIdx [⊥, ((1 : ℚ) : WithBot ℚ)] < ([⊥, ((1 : ℚ) : WithBot ℚ)] : List (WithBot ℚ)).length ∧
      ∀ (j : Nat) (h : j < ([⊥, ((1 : ℚ) : WithBot ℚ)] : List (WithBot ℚ)).length),
        ([⊥, ((1 : ℚ) : WithBot ℚ)] : List (WithBot ℚ)).get ⟨j, h⟩ ≤
          ([⊥, ((1 : ℚ) : WithBot ℚ)] : List (WithBot ℚ)).getD
            (argmaxIdx [⊥, ((1 : ℚ) : WithBot ℚ)]) ⊥) :=
  ⟨⟨by norm_num, claim_C8.2.1 [3, 4] 2 (by norm_num)⟩,
   by
    have h := claim_C8.2.2.2.1 [⊥, ((1 : ℚ) : WithBot ℚ)] (by simp)
    exact ⟨by simp, h.1, h.2⟩⟩

/-! ## C1: top-k filtering -/

theorem sortDescBot_perm (l : List (WithBot ℚ)) : (sortDescBot l).Perm l :=
  List.mergeSort_perm l _

theorem sortDescBot_sorted (l : List (WithBot ℚ)) :
    List.Pairwise (fun a b => b ≤ a) (sortDescBot l) := by
  have h := @List.sorted_mergeSort (WithBot ℚ) (fun a b => decide (b ≤ a))
    (fun a b c h1 h2 => by
      simp only [decide_eq_true_eq] at h1 h2 ⊢
      exact le_trans h2 h1)
    (fun a b => by
      simp only [Bool.or_eq_true, decide_eq_true_eq]
      exact le_total b a)
    l
  exact h.imp (fun hab => of_decide_eq_true hab)

theorem sorted_desc_le (s : List (WithBot ℚ))
    (hs : List.Pairwise (fun a b => b ≤ a) s) (i j : Nat) (hij : i ≤ j)
    (hj : j < s.length) :
    s.get ⟨j, hj⟩ ≤ s.get ⟨i, lt_of_le_of_lt hij hj⟩ := by
  rcases Nat.lt_or_ge i j with hlt | hge
  · have := (List.pairwise_iff_getElem.mp hs) i j (lt_of_le_of_lt hij hj) hj hlt
    simpa using this
  · have hij2 : i = j := le_antisymm hij hge
    subst hij2
    exact le_refl _

theorem countP_lt_add_countP_ge (kth : WithBot ℚ) :
    ∀ (lst : List (WithBot ℚ)),
      lst.countP (fun x => decide (x < kth)) +
        lst.countP (fun x => decide (kth ≤ x)) = lst.length := by
  intro lst
  induction lst with
  | nil => rfl
  | cons a t ih =>
    simp only [List.countP_cons, List.length_cons]
    by_cases hc : a < kth
    · have hc2 : ¬ kth ≤ a := not_le.mpr hc
      simp [hc, hc2]
      omega
    · have hc2 : kth ≤ a := not_lt.mp hc
      simp [hc, hc2]
      omega

theorem list_get_congr (L1 L2 : List (WithBot ℚ)) (hEq : L1 = L2) (i : Nat)
    (hh : i < L1.length) : L1.get ⟨i, hh⟩ = L2.get ⟨i, hEq ▸ hh⟩ := by
  subst hEq
  rfl

theorem count_bot_map_ite (kth : WithBot ℚ) :
    ∀ (lst : List (WithBot ℚ)), (∀ x ∈ lst, x ≠ ⊥) →
      (lst.map (fun x => if x < kth then ⊥ else x)).count ⊥ =
        lst.countP (fun x => decide (x < kth)) := by
  intro lst
  induction lst with
  | nil => intro h; rfl
  | cons a t ih =>
    intro h
    have ha : a ≠ ⊥ := h a (List.mem_cons_self a t)
    have ht : ∀ x ∈ t, x ≠ ⊥ := fun x hx => h x (List.mem_cons_of_mem a hx)
    simp only [List.map_cons, List.count_cons, List.countP_cons, ih ht]
    by_cases hc : a < kth
    · rw [if_pos hc]
      simp [hc]
    · rw [if_neg hc]
      simp [hc, ha]

theorem topKStage_map_eq (l : List ℚ) (k : Nat) (hk2 : 0 < min k l.length) :
    topKStage (l.map (fun x : ℚ => (x : WithBot ℚ))) k =
      (l.map (fun x : ℚ => (x : WithBot ℚ))).map (fun x =>
        if x < (sortDescBot (l.map (fun y : ℚ => (y : WithBot ℚ)))).getD
            (min k l.length - 1) ⊥ then ⊥ else x) := by
  simp only [topKStage, List.length_map]
  rw [if_pos hk2]

theorem filterScores_topk (E : ℚ → ℚ) (l : List ℚ) (k : Nat) :
    filterScores E l k 0 = topKStage (l.map (fun x : ℚ => (x : WithBot ℚ))) k := by
  unfold filterScores top_k_top_p_filtering
  rw [if_neg (lt_irrefl 0)]

unseal List.merge List.mergeSort in
/-- C1 counterexample: with tied scores `[1, 1]` and `top_k = 1`, nothing
is masked — both entries stay unmasked, so the number of unmasked entries
is 2, not `min(top_k, vocabulary_size) = 1`. -/
theorem claim_C1_counterexample :
    filterScores (fun _ => 1) [1, 1] 1 0 =
      [((1 : ℚ) : WithBot ℚ), ((1 : ℚ) : WithBot ℚ)] ∧
    (filterScores (fun _ => 1) [1, 1] 1 0).length -
        (filterScores (fun _ => 1) [1, 1] 1 0).count ⊥ ≠ min 1 2 := by
  constructor
  · decide
  · decide

/-- C1 (amended): for `top_k = k > 0` (and top-p disabled) the filter keeps
every entry whose score is at least the `k`-th highest, so at least
`min(k, vocabulary_size)` entries stay unmasked — exactly that many when
the scores are pairwise distinct (with ties at the threshold, more can
survive, which is what the counterexample exhibits); masked entries are
set to the bottom sentinel, unmasked entries are unchanged, and every
masked entry scores strictly below every unmasked entry. -/
theorem claim_C1 :
    ∀ (E : ℚ → ℚ) (l : List ℚ) (k : Nat), 0 < k →
      ((filterScores E l k 0).length = l.length) ∧
      (∀ (i : Nat) (h1 : i < (filterScores E l k 0).length) (h2 : i < l.length),
        (filterScores E l k 0).get ⟨i, h1⟩ = ⊥ ∨
        (filterScores E l k 0).get ⟨i, h1⟩ = ((l.get ⟨i, h2⟩ : ℚ) : WithBot ℚ)) ∧
      ((filterScores E l k 0).count ⊥ + min k l.length ≤ l.length) ∧
      (l.Nodup → (filterScores E l k 0).count ⊥ + min k l.length = l.length) ∧
      (∀ (i j : Nat) (hi1 : i < (filterScores E l k 0).length) (hi2 : i < l.length)
         (hj1 : j < (filterScores E l k 0).length) (hj2 : j < l.length),
         (filterScores E l k 0).get ⟨i, hi1⟩ = ⊥ →
         (filterScores E l k 0).get ⟨j, hj1⟩ ≠ ⊥ →
         l.get ⟨i, hi2⟩ < l.get ⟨j, hj2⟩) := by
  intro E l k hk
  rcases eq_or_ne l [] with hnil | hne
  · subst hnil
    refine ⟨?_, ?_, ?_, ?_, ?_⟩
    · rw [filterScores_topk]; simp [topKStage]
    · intro i h1 h2; simp at h2
    · rw [filterScores_topk]; simp [topKStage]
    · intro _; rw [filterScores_topk]; simp [topKStage]
    · intro i j hi1 hi2 hj1 hj2; simp at hi2
  · -- setup
    have hn : 0 < l.length := List.length_pos.mpr hne
    have hk2 : 0 < min k l.length := lt_min hk hn
    have hstage := topKStage_map_eq l k hk2
    have hF : filterScores E l k 0 =
        (l.map (fun x : ℚ => (x : WithBot ℚ))).map (fun x =>
          if x < (sortDescBot (l.map (fun y : ℚ => (y : WithBot ℚ)))).getD
              (min k l.length - 1) ⊥ then ⊥ else x) := by
      rw [filterScores_topk, hstage]
    set logits := l.map (fun x : ℚ => (x : WithBot ℚ)) with hlogits
    set s := sortDescBot logits with hs
    set k2 := min k l.length with hk2def
    set kth := s.getD (k2 - 1) ⊥ with hkth
    have hperm : s.Perm logits := sortDescBot_perm logits
    have hslen : s.length = l.length := by
      rw [hperm.length_eq, List.length_map]
    have hloglen : logits.length = l.length := List.length_map ..
    have hk2le : k2 ≤ l.length := min_le_right ..
    have hk21 : k2 - 1 < s.length := by omega
    have hsorted := sortDescBot_sorted logits
    have hnobot : ∀ x ∈ logits, x ≠ ⊥ := by
      intro x hx
      obtain ⟨y, _, hy⟩ := List.mem_map.mp hx
      rw [← hy]
      exact WithBot.coe_ne_bot
    -- the masked count
    have hcount : (filterScores E l k 0).count ⊥ =
        logits.countP (fun x => decide (x < kth)) := by
      rw [hF]
      exact count_bot_map_ite kth logits hnobot
    -- the complement count
    have hsplit := countP_lt_add_countP_ge kth logits
    -- the ge-count over the sorted list
    have hpermcount : logits.countP (fun x => decide (kth ≤ x)) =
        s.countP (fun x => decide (kth ≤ x)) :=
      (List.Perm.countP_eq _ hperm).symm
    have htake : ∀ x ∈ s.take k2, kth ≤ x := by
      intro x hx
      obtain ⟨i, hi, hxe⟩ := List.getElem_of_mem hx
      have hilen : i < k2 := by
        have := hi
        rw [List.length_take] at this
        omega
      have hi2 : i < s.length := by omega
      have hxe2 : x = s.get ⟨i, hi2⟩ := by
        rw [← hxe]
        simp [List.getElem_take]
      have hle : s.get ⟨k2 - 1, hk21⟩ ≤ s.get ⟨i, hi2⟩ := by
        have := sorted_desc_le s hsorted i (k2 - 1) (by omega) hk21
        exact this
      have hkth2 : kth = s.get ⟨k2 - 1, hk21⟩ := by
        rw [hkth, List.getD_eq_getElem s ⊥ hk21]
        rfl
      rw [hxe2, hkth2]
      exact hle
    have hcount_take : (s.take k2).countP (fun x => decide (kth ≤ x)) = k2 := by
      rw [List.countP_eq_length.mpr (fun a ha => by simpa using htake a ha)]
      rw [List.length_take]
      omega
    have hsum : s.countP (fun x => decide (kth ≤ x)) =
        (s.take k2).countP (fun x => decide (kth ≤ x)) +
          (s.drop k2).countP (fun x => decide (kth ≤ x)) := by
      conv_lhs => rw [← List.take_append_drop k2 s]
      exact List.countP_append ..
    have hge : k2 ≤ s.countP (fun x => decide (kth ≤ x)) := by
      rw [hsum, hcount_take]
      omega
    refine ⟨?_, ?_, ?_, ?_, ?_⟩
    · rw [hF, List.length_map]
      exact hloglen
    · intro i h1 h2
      have h1e : (filterScores E l k 0).get ⟨i, h1⟩ =
          (if ((l.get ⟨i, h2⟩ : ℚ) : WithBot ℚ) < kth then (⊥ : WithBot ℚ)
           else ((l.get ⟨i, h2⟩ : ℚ) : WithBot ℚ)) := by
        rw [list_get_congr _ _ hF i h1]
        simp only [List.get_eq_getElem]
        rw [List.getElem_map, List.getElem_map]
      rw [h1e]
      by_cases hc : ((l.get ⟨i, h2⟩ : ℚ) : WithBot ℚ) < kth
      · left; rw [if_pos hc]
      · right; rw [if_neg hc]
    · rw [hcount]
      rw [hloglen] at hsplit
      omega
    · intro hnd
      have hnds : s.Nodup := by
        rw [hperm.nodup_iff]
        exact hnd.map (WithBot.coe_injective)
      have hdrop0 : (s.drop k2).countP (fun x => decide (kth ≤ x)) = 0 := by
        rw [List.countP_eq_zero]
        intro x hx
        obtain ⟨i, hi, hxe⟩ := List.getElem_of_mem hx
        have hilen : k2 + i < s.length := by
          have := hi
          rw [List.length_drop] at this
          omega
        have hxe2 : x = s.get ⟨k2 + i, hilen⟩ := by
          rw [← hxe]
          simp [List.getElem_drop]
        have hle : s.get ⟨k2 + i, hilen⟩ ≤ s.get ⟨k2 - 1, hk21⟩ := by
          have := sorted_desc_le s hsorted (k2 - 1) (k2 + i) (by omega) hilen
          exact this
        have hne2 : s.get ⟨k2 + i, hilen⟩ ≠ s.get ⟨k2 - 1, hk21⟩ := by
          intro he
          simp only [List.get_eq_getElem] at he
          have := (List.Nodup.getElem_inj_iff hnds).mp he
          omega
        have hkth2 : kth = s.get ⟨k2 - 1, hk21⟩ := by
          rw [hkth, List.getD_eq_getElem s ⊥ hk21]
          rfl
        have hlt : x < kth := by
          rw [hxe2, hkth2]
          exact lt_of_le_of_ne hle hne2
        simp [not_le.mpr hlt]
      have hexact : s.countP (fun x => decide (kth ≤ x)) = k2 := by
        rw [hsum, hcount_take, hdrop0]
        omega
      rw [hcount]
      rw [hloglen] at hsplit
      rw [hpermcount, hexact] at hsplit
      omega
    · intro i j hi1 hi2 hj1 hj2 hbi hbj
      have hie : (filterScores E l k 0).get ⟨i, hi1⟩ =
          (if ((l.get ⟨i, hi2⟩ : ℚ) : WithBot ℚ) < kth then (⊥ : WithBot ℚ)
           else ((l.get ⟨i, hi2⟩ : ℚ) : WithBot ℚ)) := by
        rw [list_get_congr _ _ hF i hi1]
        simp only [List.get_eq_getElem]
        rw [List.getElem_map, List.getElem_map]
      have hje : (filterScores E l k 0).get ⟨j, hj1⟩ =
          (if ((l.get ⟨j, hj2⟩ : ℚ) : WithBot ℚ) < kth then (⊥ : WithBot ℚ)
           else ((l.get ⟨j, hj2⟩ : ℚ) : WithBot ℚ)) := by
        rw [list_get_congr _ _ hF j hj1]
        simp only [List.get_eq_getElem]
        rw [List.getElem_map, List.getElem_map]
      rw [hie] at hbi
      rw [hje] at hbj
      have hilt : ((l.get ⟨i, hi2⟩ : ℚ) : WithBot ℚ) < kth := by
        by_contra hc
        rw [if_neg hc] at hbi
        exact WithBot.coe_ne_bot hbi
      have hjge : kth ≤ ((l.get ⟨j, hj2⟩ : ℚ) : WithBot ℚ) := by
        by_contra hc
        rw [if_pos (not_le.mp hc)] at hbj
        exact hbj rfl
      have := lt_of_lt_of_le hilt hjge
      exact WithBot.coe_lt_coe.mp this

theorem claim_C1_witness :
    0 < 1 ∧
    ((filterScores (fun _ => 1) [3, 5] 1 0).count ⊥ +
        min 1 ([3, 5] : List ℚ).length ≤ ([3, 5] : List ℚ).length) ∧
    (([3, 5] : List ℚ).Nodup ∧
      (filterScores (fun _ => 1) [3, 5] 1 0).count ⊥ +
        min 1 ([3, 5] : List ℚ).length = ([3, 5] : List ℚ).length) :=
  ⟨by decide,
   (claim_C1 (fun _ => 1) [3, 5] 1 (by decide)).2.2.1,
   ⟨by decide, (claim_C1 (fun _ => 1) [3, 5] 1 (by decide)).2.2.2.1 (by decide)⟩⟩

/-! ## C2: nucleus (top-p) filtering -/

theorem cumAux_length : ∀ (xs : List ℚ) (c : ℚ), (cumAux c xs).length = xs.length := by
  intro xs
  induction xs with
  | nil => intro c; rfl
  | cons x xs ih =>
    intro c
    simp only [cumAux, List.length_cons, ih (c + x)]

theorem pyShiftMask_length (bs : List Bool) : (pyShiftMask bs).length = bs.length := by
  cases bs with
  | nil => rfl
  | cons b bs =>
    simp only [pyShiftMask, List.length_cons, List.length_dropLast]
    omega

theorem maskAux_length (p : ℚ) : ∀ (xs : List ℚ) (c : ℚ),
    (maskAux p c xs).length = xs.length := by
  intro xs
  induction xs with
  | nil => intro c; rfl
  | cons x xs ih =>
    intro c
    simp only [maskAux, List.length_cons, ih (c + x)]

theorem dropLast_cons_mask (p : ℚ) : ∀ (xs : List ℚ) (c : ℚ),
    (decide (p < c) :: (cumAux c xs).map (fun t => decide (p < t))).dropLast =
      maskAux p c xs := by
  intro xs
  induction xs with
  | nil => intro c; rfl
  | cons x xs ih =>
    intro c
    simp only [cumAux, List.map_cons, List.dropLast_cons₂, maskAux]
    rw [ih (c + x)]

theorem pyShiftMask_cum_eq (p : ℚ) (hp : 0 ≤ p) (xs : List ℚ) :
    pyShiftMask ((cumsum xs).map (fun t => decide (p < t))) = maskAux p 0 xs := by
  cases xs with
  | nil => rfl
  | cons x xs =>
    have hd0 : decide (p < 0) = false := by
      simp [not_lt.mpr hp]
    simp only [cumsum, cumAux, List.map_cons, pyShiftMask, maskAux, hd0]
    rw [dropLast_cons_mask p xs (0 + x)]

theorem sumZipIf_maskAux_all (p : ℚ) : ∀ (xs : List ℚ) (c : ℚ),
    (∀ x ∈ xs, 0 ≤ x) → p < c → sumZipIf xs (maskAux p c xs) = xs.sum := by
  intro xs
  induction xs with
  | nil => intro c _ _; rfl
  | cons x xs ih =>
    intro c hnn hpc
    have hx : 0 ≤ x := hnn x (List.mem_cons_self x xs)
    simp only [maskAux, sumZipIf, List.sum_cons]
    rw [if_pos (decide_eq_true hpc)]
    rw [ih (c + x) (fun y hy => hnn y (List.mem_cons_of_mem x hy))
      (lt_of_lt_of_le hpc (le_add_of_nonneg_right hx))]

theorem sumZipIf_maskAux_lt (p : ℚ) : ∀ (xs : List ℚ) (c : ℚ),
    (∀ x ∈ xs, 0 ≤ x) → c ≤ p → p < c + xs.sum →
    sumZipIf xs (maskAux p c xs) < c + xs.sum - p := by
  intro xs
  induction xs with
  | nil =>
    intro c _ hcp hps
    exfalso
    simp only [List.sum_nil, add_zero] at hps
    linarith
  | cons x xs ih =>
    intro c hnn hcp hps
    have hx : 0 ≤ x := hnn x (List.mem_cons_self x xs)
    have hxs : ∀ y ∈ xs, 0 ≤ y := fun y hy => hnn y (List.mem_cons_of_mem x hy)
    simp only [maskAux, sumZipIf, List.sum_cons]
    rw [if_neg (by simp only [decide_eq_true_eq]; exact not_lt.mpr hcp), zero_add]
    by_cases hcx : p < c + x
    · rw [sumZipIf_maskAux_all p xs (c + x) hxs hcx]
      linarith
    · push_neg at hcx
      have hps2 : p < (c + x) + xs.sum := by
        simp only [List.sum_cons] at hps
        linarith
      have := ih (c + x) hxs hcx hps2
      linarith

theorem maskAux_getD (p : ℚ) : ∀ (xs : List ℚ) (c : ℚ) (j : Nat), j < xs.length →
    (maskAux p c xs).getD j false = decide (p < c + (xs.take j).sum) := by
  intro xs
  induction xs with
  | nil => intro c j h; simp at h
  | cons x xs ih =>
    intro c j h
    cases j with
    | zero =>
      simp [maskAux]
    | succ j2 =>
      simp only [maskAux, List.getD_cons_succ]
      rw [ih (c + x) j2 (by simpa using h)]
      have he : c + x + (xs.take j2).sum = c + ((x :: xs).take (j2 + 1)).sum := by
        rw [List.take_succ_cons, List.sum_cons]
        ring
      rw [he]

theorem cumAux_getD : ∀ (xs : List ℚ) (c : ℚ) (j : Nat), j < xs.length →
    (cumAux c xs).getD j 0 = c + (xs.take (j + 1)).sum := by
  intro xs
  induction xs with
  | nil => intro c j h; simp at h
  | cons x xs ih =>
    intro c j h
    cases j with
    | zero =>
      simp [cumAux, List.take_succ_cons]
    | succ j2 =>
      simp only [cumAux, List.getD_cons_succ]
      rw [ih (c + x) j2 (by simpa using h)]
      rw [List.take_succ_cons, List.sum_cons]
      ring

theorem sum_take_mono (xs : List ℚ) (hnn : ∀ x ∈ xs, 0 ≤ x) (j1 j2 : Nat)
    (h : j1 ≤ j2) : (xs.take j1).sum ≤ (xs.take j2).sum := by
  have he : j2 = j1 + (j2 - j1) := by omega
  rw [he, List.take_add, List.sum_append]
  have h0 : 0 ≤ ((xs.drop j1).take (j2 - j1)).sum := by
    apply List.sum_nonneg
    intro x hx
    exact hnn x (List.mem_of_mem_drop (List.mem_of_mem_take hx))
  linarith

theorem sumZipIf_map_div (c : ℚ) : ∀ (xs : List ℚ) (bs : List Bool),
    sumZipIf (xs.map (fun x => x / c)) bs = sumZipIf xs bs / c := by
  intro xs
  induction xs with
  | nil => intro bs; simp [sumZipIf]
  | cons x xs ih =>
    intro bs
    cases bs with
    | nil => simp [sumZipIf]
    | cons b bs =>
      simp only [List.map_cons, sumZipIf]
      rw [ih bs, add_div]
      congr 1
      by_cases hb : b
      · rw [if_pos hb, if_pos hb]
      · rw [if_neg hb, if_neg hb, zero_div]

theorem sum_map_div (c : ℚ) : ∀ (xs : List ℚ),
    (xs.map (fun x => x / c)).sum = xs.sum / c := by
  intro xs
  induction xs with
  | nil => simp
  | cons x xs ih =>
    simp only [List.map_cons, List.sum_cons, ih, add_div]

theorem lookupRemoved_cons (q : Nat × WithBot ℚ) (rest : List (Nat × WithBot ℚ))
    (b : Bool) (bs : List Bool) (i : Nat) :
    lookupRemoved (q :: rest) (b :: bs) i =
      if q.1 == i then b else lookupRemoved rest bs i := by
  unfold lookupRemoved
  rw [List.zip_cons_cons]
  by_cases hc : (q.1 == i) = true
  · rw [List.find?_cons_of_pos _ (by simpa using hc), if_pos hc]
  · rw [List.find?_cons_of_neg _ (by simpa using hc), if_neg hc]

theorem lookupRemoved_getElem :
    ∀ (si : List (Nat × WithBot ℚ)) (M : List Bool), si.length = M.length →
      (si.map Prod.fst).Nodup →
      ∀ (j : Nat) (h1 : j < si.length) (h2 : j < M.length),
        lookupRemoved si M ((si.get ⟨j, h1⟩).1) = M.get ⟨j, h2⟩ := by
  intro si
  induction si with
  | nil => intro M _ _ j h1; simp at h1
  | cons q rest ih =>
    intro M hlen hnd j h1 h2
    cases M with
    | nil => simp at hlen
    | cons b bs =>
      simp only [List.map_cons, List.nodup_cons] at hnd
      cases j with
      | zero =>
        simp only [List.get_eq_getElem, List.getElem_cons_zero]
        rw [lookupRemoved_cons, if_pos (beq_self_eq_true q.1)]
      | succ j2 =>
        have hj2 : j2 < rest.length := by simpa using h1
        have hj2b : j2 < bs.length := by simpa using h2
        simp only [List.get_eq_getElem, List.getElem_cons_succ]
        rw [lookupRemoved_cons]
        have hkey : rest[j2].1 ∈ rest.map Prod.fst :=
          List.mem_map_of_mem Prod.fst (List.getElem_mem hj2)
        have hne : ¬ (q.1 == rest[j2].1) = true := by
          simp only [beq_iff_eq]
          intro he
          exact hnd.1 (he ▸ hkey)
        rw [if_neg hne]
        have := ih bs (by simpa using hlen) hnd.2 j2 hj2 hj2b
        simpa using this

theorem sumZipIf_lookup (E : ℚ → ℚ) (look : Nat → Bool) :
    ∀ (si : List (Nat × WithBot ℚ)) (M : List Bool), si.length = M.length →
      (∀ (j : Nat) (h1 : j < si.length) (h2 : j < M.length),
        look ((si.get ⟨j, h1⟩).1) = M.get ⟨j, h2⟩) →
      (si.map (fun q => if look q.1 then EbotF E q.2 else 0)).sum =
        sumZipIf (si.map (fun q => EbotF E q.2)) M := by
  intro si
  induction si with
  | nil =>
    intro M h _
    cases M with
    | nil => rfl
    | cons b bs => simp at h
  | cons q rest ih =>
    intro M hlen hpt
    cases M with
    | nil => simp at hlen
    | cons b bs =>
      simp only [List.map_cons, List.sum_cons, sumZipIf]
      have h0 := hpt 0 (by simp) (by simp)
      simp only [List.get_eq_getElem, List.getElem_cons_zero] at h0
      rw [h0]
      congr 1
      refine ih bs (by simpa using hlen) ?_
      intro j hj1 hj2
      have := hpt (j + 1) (by simpa using hj1) (by simpa using hj2)
      simpa using this

theorem filterScores_topp (E : ℚ → ℚ) (l : List ℚ) (p : ℚ) (hp : 0 < p) :
    filterScores E l 0 p = topPStage E p (l.map (fun x : ℚ => (x : WithBot ℚ))) := by
  unfold filterScores top_k_top_p_filtering
  have h0 : topKStage (l.map (fun x : ℚ => (x : WithBot ℚ))) 0 =
      l.map (fun x : ℚ => (x : WithBot ℚ)) := by
    simp [topKStage]
  simp only [h0]
  rw [if_pos hp]

/-- C2: with `top_p = p` in `(0,1)` (and top-k disabled) and any positive
weight function in place of `exp`, the nucleus filter keeps at least one
token; the pre-filter probability mass of the removed tokens is strictly
below `1 - p` (hence below `1 - p` plus one token of slack as claimed);
the sorted-order removal mask keeps position 0, removed positions are
upward closed (so the kept set is a prefix of the descending sort), and a
position `j + 1` is removed exactly when the cumulative probability
through position `j` already exceeds `p` — i.e. the kept prefix is the
smallest one whose cumulative probability exceeds `p`, including the
boundary token. -/
theorem claim_C2 :
    ∀ (E : ℚ → ℚ), (∀ x : ℚ, 0 < E x) →
    ∀ (l : List ℚ), l ≠ [] →
    ∀ (p : ℚ), 0 < p → p < 1 →
      (∃ (i : Nat) (h1 : i < (filterScores E l 0 p).length),
        (filterScores E l 0 p).get ⟨i, h1⟩ ≠ ⊥) ∧
      ((l.enum.map (fun q =>
          if (filterScores E l 0 p).getD q.1 ⊥ = ⊥ then E q.2 else 0)).sum /
          (l.map E).sum < 1 - p) ∧
      ((topPMask E p (l.map (fun x : ℚ => (x : WithBot ℚ)))).getD 0 true = false) ∧
      (∀ (j1 j2 : Nat), j1 ≤ j2 →
        j2 < (topPMask E p (l.map (fun x : ℚ => (x : WithBot ℚ)))).length →
        (topPMask E p (l.map (fun x : ℚ => (x : WithBot ℚ)))).getD j1 false = true →
        (topPMask E p (l.map (fun x : ℚ => (x : WithBot ℚ)))).getD j2 false = true) ∧
      (∀ (j : Nat), j + 1 < (topPMask E p (l.map (fun x : ℚ => (x : WithBot ℚ)))).length →
        ((topPMask E p (l.map (fun x : ℚ => (x : WithBot ℚ)))).getD (j + 1) false = true ↔
          p < (cumsum (topPProbs E (l.map (fun x : ℚ => (x : WithBot ℚ))))).getD j 0)) := by
  intro E hE l hl p hp0 hp1
  set logits := l.map (fun x : ℚ => (x : WithBot ℚ)) with hlogits
  set si := sortedEnum logits with hsi
  set sl := si.map (fun q => q.2) with hsl
  set probs := topPProbs E logits with hprobs
  set M := topPMask E p logits with hM
  set S := (l.map E).sum with hS
  have hn : 0 < l.length := List.length_pos.mpr hl
  have hllen : logits.length = l.length := List.length_map ..
  have hsilen : si.length = l.length := by
    rw [hsi]
    unfold sortedEnum
    rw [List.length_mergeSort, List.enum_length, hllen]
  have hsllen : sl.length = l.length := by
    rw [hsl, List.length_map, hsilen]
  have hperm_si : si.Perm logits.enum := by
    rw [hsi]
    unfold sortedEnum
    exact List.mergeSort_perm _ _
  have hperm_sl : sl.Perm logits := by
    have h1 := hperm_si.map (fun q : Nat × WithBot ℚ => q.2)
    have h2 : logits.enum.map (fun q : Nat × WithBot ℚ => q.2) = logits :=
      List.enum_map_snd logits
    rw [h2] at h1
    exact h1
  have hSpos : 0 < S := by
    rw [hS]
    apply List.sum_pos
    · intro x hx
      obtain ⟨y, _, rfl⟩ := List.mem_map.mp hx
      exact hE y
    · intro hmap
      exact hl (List.map_eq_nil_iff.mp hmap)
  have hD : (sl.map (EbotF E)).sum = S := by
    have h1 := (hperm_sl.map (EbotF E)).sum_eq
    rw [h1, hlogits, List.map_map]
    rw [hS]
    apply congrArg
    apply List.map_congr_left
    intro x _
    rfl
  have hprobs_def : probs = sl.map (fun x => EbotF E x / S) := by
    rw [hprobs]
    unfold topPProbs softmaxBot
    rw [← hsi, ← hsl, hD]
  have hcomp : (sl.map (EbotF E)).map (fun x => x / S) = probs := by
    rw [List.map_map, hprobs_def]
    rfl
  have hprobs_sum : probs.sum = 1 := by
    rw [← hcomp, sum_map_div, hD]
    exact div_self (ne_of_gt hSpos)
  have hprobs_len : probs.length = l.length := by
    rw [hprobs_def, List.length_map, hsllen]
  have hprobs_nonneg : ∀ x ∈ probs, 0 ≤ x := by
    intro x hx
    rw [hprobs_def] at hx
    obtain ⟨z, hz, rfl⟩ := List.mem_map.mp hx
    have hzl : z ∈ logits := hperm_sl.mem_iff.mp hz
    rw [hlogits] at hzl
    obtain ⟨w, _, rfl⟩ := List.mem_map.mp hzl
    have hrw : EbotF E ((w : ℚ) : WithBot ℚ) = E w := rfl
    rw [hrw]
    exact le_of_lt (div_pos (hE w) hSpos)
  have hM_eq : M = maskAux p 0 probs := by
    rw [hM]
    unfold topPMask
    rw [← hprobs]
    exact pyShiftMask_cum_eq p (le_of_lt hp0) probs
  have hM_len : M.length = l.length := by
    rw [hM_eq, maskAux_length, hprobs_len]
  -- conjunct (c): the first sorted position is always kept
  have hc : M.getD 0 true = false := by
    rw [hM_eq]
    cases hpp : probs with
    | nil => rw [hpp] at hprobs_len; simp at hprobs_len; omega
    | cons a t =>
      simp [maskAux, not_lt.mpr (le_of_lt hp0)]
  -- the scatter back to original indexing
  have hF_eq : filterScores E l 0 p =
      logits.enum.map (fun q => if lookupRemoved si M q.1 then ⊥ else q.2) := by
    rw [filterScores_topp E l p hp0]
    unfold topPStage
    rw [← hlogits, ← hsi, ← hM]
  have hF_len : (filterScores E l 0 p).length = l.length := by
    rw [hF_eq, List.length_map, List.enum_length, hllen]
  have hkeys : (si.map Prod.fst).Nodup := by
    have h1 := (hperm_si.map Prod.fst).nodup_iff
    rw [List.enum_map_fst] at h1
    exact h1.mpr (List.nodup_range _)
  have hsiM_len : si.length = M.length := by rw [hsilen, hM_len]
  have hlook := lookupRemoved_getElem si M hsiM_len hkeys
  have hFelem : ∀ (i : Nat) (h : i < l.length),
      (filterScores E l 0 p).getD i ⊥ =
        (if lookupRemoved si M i then (⊥ : WithBot ℚ)
         else ((l.get ⟨i, h⟩ : ℚ) : WithBot ℚ)) := by
    intro i h
    have hlen2 : i < (logits.enum.map
        (fun q => if lookupRemoved si M q.1 then ⊥ else q.2)).length := by
      rw [List.length_map, List.enum_length, hllen]
      exact h
    rw [hF_eq, List.getD_eq_getElem _ _ hlen2, List.getElem_map, List.getElem_enum]
    have hgl : i < logits.length := by rw [hllen]; exact h
    have he2 : logits[i] = ((l.get ⟨i, h⟩ : ℚ) : WithBot ℚ) := by
      simp only [List.get_eq_getElem]
      exact List.getElem_map _
    rw [he2]
  -- conjunct (a): at least one token survives
  have h0si : 0 < si.length := by rw [hsilen]; exact hn
  have h0M : 0 < M.length := by rw [hM_len]; exact hn
  have hM0 : M.get ⟨0, h0M⟩ = false := by
    rw [List.get_eq_getElem, ← List.getD_eq_getElem M true h0M]
    exact hc
  have hsurvivor : ∃ (i : Nat) (h1 : i < (filterScores E l 0 p).length),
      (filterScores E l 0 p).get ⟨i, h1⟩ ≠ ⊥ := by
    have hlook0 : lookupRemoved si M ((si.get ⟨0, h0si⟩).1) = false := by
      have h2 := hlook 0 h0si h0M
      rw [hM0] at h2
      exact h2
    have hi0 : (si.get ⟨0, h0si⟩).1 < l.length := by
      have hmem : (si.get ⟨0, h0si⟩).1 ∈ si.map Prod.fst :=
        List.mem_map_of_mem Prod.fst (List.get_mem si 0 h0si)
      have h2 : (si.get ⟨0, h0si⟩).1 ∈ logits.enum.map Prod.fst :=
        (hperm_si.map Prod.fst).mem_iff.mp hmem
      rw [List.enum_map_fst] at h2
      have := List.mem_range.mp h2
      rw [hllen] at this
      exact this
    have hFl : (si.get ⟨0, h0si⟩).1 < (filterScores E l 0 p).length := by
      rw [hF_len]
      exact hi0
    refine ⟨(si.get ⟨0, h0si⟩).1, hFl, ?_⟩
    have hgd : (filterScores E l 0 p).get ⟨(si.get ⟨0, h0si⟩).1, hFl⟩ =
        (filterScores E l 0 p).getD (si.get ⟨0, h0si⟩).1 ⊥ := by
      rw [List.getD_eq_getElem _ _ hFl]
      simp [List.get_eq_getElem]
    rw [hgd, hFelem _ hi0, if_neg (by rw [hlook0]; simp)]
    exact WithBot.coe_ne_bot
  -- conjunct (b): removed mass strictly below 1 - p
  have hmass : (l.enum.map (fun q =>
      if (filterScores E l 0 p).getD q.1 ⊥ = ⊥ then E q.2 else 0)).sum / S < 1 - p := by
    have hA_pointwise : ∀ q ∈ l.enum,
        (if (filterScores E l 0 p).getD q.1 ⊥ = ⊥ then E q.2 else 0) =
          (fun q2 : Nat × WithBot ℚ =>
            if lookupRemoved si M q2.1 then EbotF E q2.2 else 0)
            (Prod.map id (fun x : ℚ => (x : WithBot ℚ)) q) := by
      intro q hq
      obtain ⟨j, hj, he⟩ := List.getElem_of_mem hq
      rw [List.getElem_enum] at he
      subst he
      have hjl : j < l.length := by
        have := hj
        rw [List.enum_length] at this
        exact this
      rw [hFelem j hjl]
      simp only [Prod.map, id]
      have hebot : ∀ y : ℚ, EbotF E ((y : ℚ) : WithBot ℚ) = E y := fun y => rfl
      by_cases hb : lookupRemoved si M j = true
      · simp [hb, hebot]
      · have hb2 : lookupRemoved si M j = false := by
          cases hx : lookupRemoved si M j
          · rfl
          · exact absurd hx hb
        simp [hb2]
    have hA1 : (l.enum.map (fun q =>
        if (filterScores E l 0 p).getD q.1 ⊥ = ⊥ then E q.2 else 0)).sum =
        (logits.enum.map (fun q : Nat × WithBot ℚ =>
          if lookupRemoved si M q.1 then EbotF E q.2 else 0)).sum := by
      rw [List.map_congr_left hA_pointwise]
      rw [hlogits, List.enum_map, List.map_map]
      rfl
    have hA2 : (logits.enum.map (fun q : Nat × WithBot ℚ =>
        if lookupRemoved si M q.1 then EbotF E q.2 else 0)).sum =
        (si.map (fun q : Nat × WithBot ℚ =>
          if lookupRemoved si M q.1 then EbotF E q.2 else 0)).sum :=
      ((hperm_si.map _).sum_eq).symm
    have hA3 : (si.map (fun q : Nat × WithBot ℚ =>
        if lookupRemoved si M q.1 then EbotF E q.2 else 0)).sum =
        sumZipIf (si.map (fun q => EbotF E q.2)) M :=
      sumZipIf_lookup E (lookupRemoved si M) si M hsiM_len hlook
    have hA4 : si.map (fun q : Nat × WithBot ℚ => EbotF E q.2) =
        sl.map (EbotF E) := by
      rw [hsl, List.map_map]
      rfl
    have hzip_div : sumZipIf probs M = sumZipIf (sl.map (EbotF E)) M / S := by
      rw [← hcomp, sumZipIf_map_div]
    have hbound : sumZipIf probs M < 1 - p := by
      rw [hM_eq]
      have h2 := sumZipIf_maskAux_lt p probs 0 hprobs_nonneg (le_of_lt hp0)
        (by rw [hprobs_sum]; linarith)
      rw [hprobs_sum] at h2
      linarith
    calc (l.enum.map (fun q =>
          if (filterScores E l 0 p).getD q.1 ⊥ = ⊥ then E q.2 else 0)).sum / S
        = sumZipIf (sl.map (EbotF E)) M / S := by rw [hA1, hA2, hA3, hA4]
      _ = sumZipIf probs M := hzip_div.symm
      _ < 1 - p := hbound
  -- conjunct (d): removed positions are upward closed
  have hd : ∀ (j1 j2 : Nat), j1 ≤ j2 → j2 < M.length →
      M.getD j1 false = true → M.getD j2 false = true := by
    intro j1 j2 hj12 hj2 hmj1
    have hj2p : j2 < probs.length := by rw [hprobs_len, ← hM_len]; exact hj2
    have hj1p : j1 < probs.length := lt_of_le_of_lt hj12 hj2p
    rw [hM_eq, maskAux_getD p probs 0 j1 hj1p] at hmj1
    simp only [decide_eq_true_eq, zero_add] at hmj1
    rw [hM_eq, maskAux_getD p probs 0 j2 hj2p]
    simp only [decide_eq_true_eq, zero_add]
    exact lt_of_lt_of_le hmj1 (sum_take_mono probs hprobs_nonneg j1 j2 hj12)
  -- conjunct (e): the boundary characterisation
  have he : ∀ (j : Nat), j + 1 < M.length →
      (M.getD (j + 1) false = true ↔ p < (cumsum probs).getD j 0) := by
    intro j hj
    have hjp : j < probs.length := by
      rw [hprobs_len, ← hM_len]
      omega
    have hj1p : j + 1 < probs.length := by rw [hprobs_len, ← hM_len]; exact hj
    rw [hM_eq, maskAux_getD p probs 0 (j + 1) hj1p]
    have hcg : (cumsum probs).getD j 0 = 0 + (probs.take (j + 1)).sum := by
      unfold cumsum
      exact cumAux_getD probs 0 j hjp
    rw [hcg]
    simp only [decide_eq_true_eq]
  exact ⟨hsurvivor, hmass, hc, hd, he⟩

theorem claim_C2_witness :
    (∀ x : ℚ, 0 < (fun _ : ℚ => (1 : ℚ)) x) ∧
    ([(0 : ℚ), 0] ≠ []) ∧ (0 < (2 : ℚ)/3) ∧ ((2 : ℚ)/3 < 1) ∧
    (∃ (i : Nat) (h1 : i < (filterScores (fun _ => 1) [(0 : ℚ), 0] 0 (2/3)).length),
      (filterScores (fun _ => 1) [(0 : ℚ), 0] 0 (2/3)).get ⟨i, h1⟩ ≠ ⊥) ∧
    (([(0 : ℚ), 0].enum.map (fun q =>
        if (filterScores (fun _ => 1) [(0 : ℚ), 0] 0 (2/3)).getD q.1 ⊥ = ⊥
        then (fun _ : ℚ => (1 : ℚ)) q.2 else 0)).sum /
        ([(0 : ℚ), 0].map (fun _ : ℚ => (1 : ℚ))).sum < 1 - (2 : ℚ)/3) :=
  ⟨fun _ => one_pos, by decide, by norm_num, by norm_num,
   (claim_C2 (fun _ => 1) (fun _ => one_pos) [(0 : ℚ), 0] (by decide) (2/3)
     (by norm_num) (by norm_num)).1,
   (claim_C2 (fun _ => 1) (fun _ => one_pos) [(0 : ℚ), 0] (by decide) (2/3)
     (by norm_num) (by norm_num)).2.1⟩

end CloverEdition
